import Mathlib

set_option linter.unusedSectionVars false
set_option linter.unusedVariables false

/-!
Verification development for the SafeMDP Mars safe-exploration experiment.

The repository ships two Python files: `src/mars.py` (the Mars experiment
script) and `examples/mars/plot_utilities.py` (`plot_dist_from_C` and other
plotting helpers).  The core module `grid_world.py` (class `GridWorld` with
`update_sets`, `target_sample`, `add_observation`, plus `compute_S_hat0`,
`compute_true_safe_set`, `compute_true_S_hat`) is imported by `mars.py`
but its source is not part of this repository snapshot; those parts are
modelled here from the specification, and each such definition carries a
doc comment saying so.

Modelling conventions:
- grid nodes are `Fin n`, actions are `Fin 5` with action `0` = STAY;
- a transition is a pair `(node, action)`;
- real-valued quantities are kept polymorphic over a `LinearOrderedRing`
  so that concrete instances can be evaluated over `ℤ`, while the actual
  program corresponds to the `ℝ` instance; quantities that genuinely need
  `Real.sqrt` (the confidence-interval formula of `plot_dist_from_C`) are
  stated directly over `ℝ`.
-/

namespace SafeMDP

/-- Three-way safety label of a transition (spec §3, Safety Label). -/
inductive SafetyLabel : Type
  | safeL : SafetyLabel
  | notSafeL : SafetyLabel
  | unknownL : SafetyLabel
deriving DecidableEq

/-- Modelled from the spec: §4.2 Safety Classifier, `classify(mean, var, β, h)`
applied to the already-computed confidence interval `[l, u]` with safe range
`[h, ∞)` (the sign convention matched to the negative threshold `h` of
`mars.py`): SAFE iff the interval lies entirely within the safe range
(`h ≤ l`), UNSAFE iff it lies entirely outside (`u < h`), UNKNOWN otherwise. -/
def classify {α : Type} [LinearOrder α] (l u thr : α) : SafetyLabel :=
  if thr ≤ l then .safeL else if u < thr then .notSafeL else .unknownL

/-- Intersection of two confidence intervals represented as (lower, upper). -/
def inter {α : Type} [LinearOrder α] (p q : α × α) : α × α :=
  (max p.1 q.1, min p.2 q.2)

/-- Confidence interval `[mean − hw(var), mean + hw(var)]` built from a
posterior `(mean, var)` pair; `hw` is the half-width map, which is
`fun v => β * Real.sqrt v` in the program (spec §3, Confidence Interval). -/
def ciOf {α : Type} [Sub α] [Add α] (hw : α → α) (p : α × α) : α × α :=
  (p.1 - hw p.2, p.1 + hw p.2)

/-- Failure conditions of the sampling policy (spec §4.4 / §7). -/
inductive SampleError : Type
  | emptyFrontier : SampleError
deriving DecidableEq

/-- Modelled from the spec: the `GridWorld` object of the absent
`grid_world.py`, i.e. the static configuration of the Safe-Set Engine
(spec §2, §6): grid size `n` (number of nodes), the neighbour map of the
Grid Graph, the confidence half-width map `hw` of the Belief Model /
Safety Classifier, safety threshold `h`, Lipschitz constant `L`, the
geometric distance between transitions, the Belief-Model posterior `post`
as a function of the full training list, the seed region, the seed set
`Ŝ₀`, and the sensor draw `mkObs` performed by `add_observation`. -/
structure Engine (α : Type) (Obs : Type) where
  n : ℕ
  neigh : Fin n → Fin 5 → Option (Fin n)
  hw : α → α
  h : α
  L : α
  dist : Fin n × Fin 5 → Fin n × Fin 5 → α
  post : List Obs → Fin n × Fin 5 → α × α
  seed : Fin n → Bool
  shat0 : Fin n × Fin 5 → Bool
  mkObs : Fin n × Fin 5 → Obs

/-- Pointwise Boolean implication between two Boolean predicates. -/
def bimp {κ : Type} (f g : κ → Bool) : Prop :=
  ∀ x, f x = true → g x = true

/-- One step of reachability closure over a Boolean adjacency. -/
def reachStep {n : ℕ} (adj : Fin n → Fin n → Bool) (R : Fin n → Bool) :
    Fin n → Bool :=
  fun v => R v || decide (∃ u, R u = true ∧ adj u v = true)

/-- `k`-step reachability closure over a Boolean adjacency. -/
def reachN {n : ℕ} (adj : Fin n → Fin n → Bool) (R : Fin n → Bool) (k : ℕ) :
    Fin n → Bool :=
  (reachStep adj)^[k] R

namespace Engine

variable {α Obs : Type} [LinearOrderedRing α]

/-- Modelled from the spec: the running per-transition confidence interval of
the engine.  Each ingested observation refines the posterior; the engine
intersects the new interval with the previous one, so intervals shrink or
stay the same as data accumulate (spec §3: the interval "shrinks or stays
the same only when new relevant observations arrive", and the classifier
"must be implemented so that shrinking intervals cannot flip a SAFE
transition to UNSAFE").  `sofar` is the list of observations already
ingested. -/
def intervalAux (E : Engine α Obs) :
    List Obs → (Fin E.n × Fin 5 → α × α) → List Obs → Fin E.n × Fin 5 → α × α
  | _, I, [] => I
  | sofar, I, o :: rest =>
      intervalAux E (sofar ++ [o])
        (fun t => inter (I t) (ciOf E.hw (E.post (sofar ++ [o]) t))) rest

/-- The engine's confidence interval after ingesting the list `os`,
starting from the prior interval given by the posterior on no data. -/
def interval (E : Engine α Obs) (os : List Obs) : Fin E.n × Fin 5 → α × α :=
  E.intervalAux [] (fun t => ciOf E.hw (E.post [] t)) os

/-- Direct SAFE certificate: the confidence interval lies entirely within
the safe range `[h, ∞)` (spec §3, Safety Label). -/
def safeCert (E : Engine α Obs) (os : List Obs) (t : Fin E.n × Fin 5) : Bool :=
  decide (E.h ≤ (E.interval os t).1)

/-- Direct UNSAFE certificate: the confidence interval lies entirely outside
the safe range (spec §3, Safety Label). -/
def failCert (E : Engine α Obs) (os : List Obs) (t : Fin E.n × Fin 5) : Bool :=
  decide ((E.interval os t).2 < E.h)

/-- Modelled from the spec: directly classified safe set before Lipschitz
propagation; STAY (action 0) is always trivially safe (spec §3). -/
def directS (E : Engine α Obs) (os : List Obs) (t : Fin E.n × Fin 5) : Bool :=
  decide (t.2 = (0 : Fin 5)) ||
    decide (classify (E.interval os t).1 (E.interval os t).2 E.h = .safeL)

/-- Modelled from the spec: one step of Lipschitz propagation (spec §4.2
`propagate` and §4.3 step 1): a transition is certified if some already-SAFE
transition's interval, extended by `L · distance`, still lies in the safe
range; safety is the union of the direct and the propagated certificate. -/
def propStep (E : Engine α Obs) (lm : Fin E.n × Fin 5 → α × α)
    (Safe : Fin E.n × Fin 5 → Bool) : Fin E.n × Fin 5 → Bool :=
  fun t => Safe t ||
    decide (∃ t2, Safe t2 = true ∧ E.h ≤ (lm t2).1 - E.L * E.dist t2 t)

/-- Modelled from the spec: the safe set S (spec §4.3 steps 1–2): direct
classification followed by Lipschitz propagation iterated to a fixed point
(at most `|nodes|·|actions|` rounds). -/
def S (E : Engine α Obs) (os : List Obs) : Fin E.n × Fin 5 → Bool :=
  (propStep E (E.interval os))^[E.n * 5] (E.directS os)

/-- Adjacency induced by a transition set: an edge `u → v` exists when some
action of `u` is in the set and leads to `v`. -/
def adjOf (E : Engine α Obs) (X : Fin E.n × Fin 5 → Bool) :
    Fin E.n → Fin E.n → Bool :=
  fun u v => decide (∃ a : Fin 5, X (u, a) = true ∧ E.neigh u a = some v)

/-- Nodes forward-reachable from the seed region along transitions of `X`. -/
def reachVia (E : Engine α Obs) (X : Fin E.n × Fin 5 → Bool) : Fin E.n → Bool :=
  reachN (E.adjOf X) E.seed E.n

/-- Nodes from which the seed region is reachable along transitions of `Y`
(the return-path check of spec §4.3 step 3). -/
def returnVia (E : Engine α Obs) (Y : Fin E.n × Fin 5 → Bool) : Fin E.n → Bool :=
  reachN (fun u v => E.adjOf Y v u) E.seed E.n

/-- Modelled from the spec: one round of the reachable-returnable closure
(spec §4.3 step 3): add any transition of `S` whose source is reachable from
the seed via the growing set and whose target can return to the seed via
SAFE transitions. -/
def shatStep (E : Engine α Obs) (S X : Fin E.n × Fin 5 → Bool) :
    Fin E.n × Fin 5 → Bool :=
  fun t =>
    X t ||
      (S t && E.reachVia X t.1 &&
        (match E.neigh t.1 t.2 with
          | some v => E.returnVia S v
          | none => false))

/-- The reachable-returnable closure of `S` started from the seed set `X0`,
iterated for `|nodes|·|actions|` rounds (spec §4.3 step 3). -/
def shatClosureFrom (E : Engine α Obs) (S X0 : Fin E.n × Fin 5 → Bool) :
    Fin E.n × Fin 5 → Bool :=
  (E.shatStep S)^[E.n * 5] X0

/-- Modelled from the spec: the certified reachable-returnable set Ŝ after
ingesting `os`, grown from the seed set `Ŝ₀` (spec §3, §4.3). -/
def Shat (E : Engine α Obs) (os : List Obs) : Fin E.n × Fin 5 → Bool :=
  E.shatClosureFrom (E.S os) E.shat0

/-- Optimistic SAFE certificate: the favorable (upper) end of the confidence
interval lies in the safe range (spec §3, Expander Frontier). -/
def optCert (E : Engine α Obs) (os : List Obs) (t : Fin E.n × Fin 5) : Bool :=
  decide (E.h ≤ (E.interval os t).2)

/-- Optimistic safe set: STAY plus optimistically certified transitions. -/
def Sopt (E : Engine α Obs) (os : List Obs) (t : Fin E.n × Fin 5) : Bool :=
  decide (t.2 = (0 : Fin 5)) || E.optCert os t

/-- Modelled from the spec: the expander frontier G (spec §3, §4.3 step 4):
transitions of `S \ Ŝ` whose addition would extend the reachable region to
a previously-unreached node while a return path exists under the optimistic
safe set. -/
def G (E : Engine α Obs) (os : List Obs) : Fin E.n × Fin 5 → Bool :=
  fun t =>
    E.S os t && !(E.Shat os t) &&
      decide (∃ v, E.reachVia (fun t2 => E.Shat os t2 || decide (t2 = t)) v = true ∧
        E.reachVia (E.Shat os) v = false) &&
      (match E.neigh t.1 t.2 with
        | some v => E.returnVia (E.Sopt os) v
        | none => false)

/-- All transitions in row-major order: lowest node index first, then lowest
action index (the deterministic tie-break order of spec §4.4). -/
def allTrans (E : Engine α Obs) : List (Fin E.n × Fin 5) :=
  (List.finRange E.n).flatMap fun s => (List.finRange 5).map fun a => (s, a)

/-- The triple (S, (Ŝ, G)) recomputed from scratch from the training list,
i.e. `GridWorld.update_sets` (spec §4.3 `recompute`). -/
def updateSets (E : Engine α Obs) (os : List Obs) :
    (Fin E.n × Fin 5 → Bool) ×
      ((Fin E.n × Fin 5 → Bool) × (Fin E.n × Fin 5 → Bool)) :=
  (E.S os, (E.Shat os, E.G os))

/-- Modelled from the spec: `GridWorld.target_sample` (spec §4.4): among the
frontier G pick the transition of maximal posterior variance, ties broken by
lowest node then lowest action index; fails with an "empty frontier"
condition if G is empty. -/
def selectFrom (E : Engine α Obs)
    (sets : (Fin E.n × Fin 5 → Bool) ×
      ((Fin E.n × Fin 5 → Bool) × (Fin E.n × Fin 5 → Bool)))
    (os : List Obs) : Except SampleError (Fin E.n × Fin 5) :=
  match E.allTrans.filter (fun t => sets.2.2 t) with
  | [] => .error .emptyFrontier
  | c :: cs =>
      .ok (cs.foldl
        (fun best t => if (E.post os best).2 < (E.post os t).2 then t else best) c)

/-- State of the Mars exploration loop: the training list together with the
(S, (Ŝ, G)) snapshot left by the most recent `update_sets` call. -/
def LoopState (E : Engine α Obs) : Type :=
  List Obs ×
    ((Fin E.n × Fin 5 → Bool) ×
      ((Fin E.n × Fin 5 → Bool) × (Fin E.n × Fin 5 → Bool)))

/-- One iteration of the exploration loop of `mars.py` (lines 113–119):
`x.update_sets()`, then `next_sample = x.target_sample()`, then
`x.add_observation(*next_sample)`; a sampling failure propagates exactly as
a Python exception would. -/
def iterStep (E : Engine α Obs) (st : E.LoopState) :
    Except SampleError E.LoopState :=
  match E.selectFrom (E.updateSets st.1) st.1 with
  | .error e => .error e
  | .ok tr => .ok (st.1 ++ [E.mkObs tr], E.updateSets st.1)

/-- The exploration loop of `mars.py` (`for i in range(50): ...`) with an
arbitrary iteration budget. -/
def marsLoop (E : Engine α Obs) : ℕ → E.LoopState → Except SampleError E.LoopState
  | 0, st => .ok st
  | k + 1, st =>
      match E.iterStep st with
      | .error e => .error e
      | .ok st2 => E.marsLoop k st2

/-- Modelled from the spec: `compute_true_safe_set` (spec §4.6): the exact,
noise-free safe set obtained by thresholding the true safety feature; STAY
is trivially safe. -/
def trueSafeSet (E : Engine α Obs) (feature : Fin E.n × Fin 5 → α) :
    Fin E.n × Fin 5 → Bool :=
  fun t => decide (t.2 = (0 : Fin 5)) || decide (E.h ≤ feature t)

/-- STAY transitions of the seed region, the starting set of the oracle's
closure (`initial_nodes` in `mars.py`). -/
def seedStays (E : Engine α Obs) : Fin E.n × Fin 5 → Bool :=
  fun t => E.seed t.1 && decide (t.2 = (0 : Fin 5))

/-- Modelled from the spec: `compute_true_S_hat` (spec §4.6): the same
reachable-returnable closure as the online engine, applied to the exact safe
set. -/
def trueShat (E : Engine α Obs) (feature : Fin E.n × Fin 5 → α) :
    Fin E.n × Fin 5 → Bool :=
  E.shatClosureFrom (E.trueSafeSet feature) E.seedStays

end Engine

/-- `np.sum` of a Boolean transition matrix: the number of `true` entries. -/
def npSum (N : ℕ) (M : Fin N × Fin 5 → Bool) : ℕ :=
  ∑ t : Fin N × Fin 5, if M t then 1 else 0

/-- `mars.py` line 136: `size_S_hat[...] = np.sum(x.S_hat)`. -/
def size_S_hat (N : ℕ) (sHat : Fin N × Fin 5 → Bool) : ℕ :=
  npSum N sHat

/-- `mars.py` lines 137–138:
`np.sum(np.logical_and(true_S_hat, np.logical_not(x.S_hat)))`. -/
def true_S_hat_minus_S_hat (N : ℕ) (sHat tShat : Fin N × Fin 5 → Bool) : ℕ :=
  npSum N fun t => tShat t && !(sHat t)

/-- `mars.py` lines 139–140:
`np.sum(np.logical_and(x.S_hat, np.logical_not(true_S_hat)))`. -/
def S_hat_minus_true_S_hat (N : ℕ) (sHat tShat : Fin N × Fin 5 → Bool) : ℕ :=
  npSum N fun t => sHat t && !(tShat t)

namespace Engine

variable {α Obs : Type} [LinearOrderedRing α]

/-- The tail of the `mars.py` experiment for one hyperparameter cell: run the
exploration loop, and only after it has completed compute the oracle's
ground-truth certified set from the true safety feature and the three scalar
metrics of lines 136–140.  The first component of the result is the loop
state (training list and S, Ŝ, G snapshot); the oracle contributes only to
the second (metrics) component. -/
def runExperiment (E : Engine α Obs) (feature : Fin E.n × Fin 5 → α)
    (st0 : E.LoopState) (budget : ℕ) :
    Except SampleError (E.LoopState × (ℕ × ℕ × ℕ)) :=
  match E.marsLoop budget st0 with
  | .error e => .error e
  | .ok st =>
      let tShat := E.trueShat feature
      let sHat := st.2.2.1
      .ok (st,
        (size_S_hat E.n sHat,
          true_S_hat_minus_S_hat E.n sHat tShat,
          S_hat_minus_true_S_hat E.n sHat tShat))

end Engine

namespace Mars

/-- `mars.py` line 14: `world_shape = (60, 60)`. -/
def world_shape : ℕ × ℕ := (60, 60)

/-- `mars.py` line 15: `step_size = (2., 2.)`. -/
def step_size : ℝ × ℝ := (2, 2)

/-- `mars.py` line 59: `h = -np.tan(np.pi / 9.) * step_size[0]`. -/
noncomputable def h : ℝ := -Real.tan (Real.pi / 9) * step_size.1

/-- Number of grid nodes, `np.prod(world_shape)`. -/
def numNodes : ℕ := world_shape.1 * world_shape.2

/-- `mars.py` lines 68–69: `S0 = np.zeros((np.prod(world_shape), 5),
dtype=bool); S0[:, 0] = True`. -/
def S0 : Fin numNodes × Fin 5 → Bool :=
  fun t => decide (t.2 = (0 : Fin 5))

/-- `mars.py` line 65: `beta = 3`. -/
def beta : ℝ := 3

/-- `mars.py` line 62: `L = 1.`. -/
def lipschitz : ℝ := 1

end Mars

/-! Definitions from `examples/mars/plot_utilities.py`, `plot_dist_from_C`
(lines 157–192), stated elementwise over the flattened arrays. -/

/-- `plot_utilities.py` line 179: `sigma = beta * np.sqrt(var)`. -/
noncomputable def plot_sigma (beta var : ℝ) : ℝ := beta * Real.sqrt var

/-- `plot_utilities.py` line 180: `l = np.squeeze(mu - sigma)`. -/
noncomputable def plot_l (mu var beta : ℝ) : ℝ := mu - plot_sigma beta var

/-- `plot_utilities.py` line 181: `u = np.squeeze(mu + sigma)`. -/
noncomputable def plot_u (mu var beta : ℝ) : ℝ := mu + plot_sigma beta var

/-- `plot_utilities.py` lines 184–192, elementwise: initialize with 0, then
set entries with `altitudes - u > 0` to that difference, then set entries
with `altitudes - l < 0` to that difference (the later assignment wins where
both apply). -/
noncomputable def dist_from_confidence_interval (mu var beta a : ℝ) : ℝ :=
  if a - plot_l mu var beta < 0 then a - plot_l mu var beta
  else if a - plot_u mu var beta > 0 then a - plot_u mu var beta
  else 0

/-! Training-set bookkeeping of the Belief Model (spec §4.5, §6): the
operations `mars.py` performs on the GP training set. -/

/-- The operations applied to the Belief Model's training set:
`add_observation` appends one observation, `update(new_X, new_Y)` appends a
batch, and `set_XY` (the explicit reset used at `mars.py` line 110)
replaces the training set wholesale. -/
inductive GpOp (Obs : Type) : Type
  | add : Obs → GpOp Obs
  | update : List Obs → GpOp Obs
  | set_XY : List Obs → GpOp Obs
deriving DecidableEq

/-- Whether an operation is the explicit reset. -/
def isReset {Obs : Type} : GpOp Obs → Bool
  | .set_XY _ => true
  | _ => false

/-- Effect of one operation on the training set. -/
def applyOp {Obs : Type} (X : List Obs) : GpOp Obs → List Obs
  | .add o => X ++ [o]
  | .update ys => X ++ ys
  | .set_XY d => d

/-- Effect of a sequence of operations on the training set. -/
def applyOps {Obs : Type} (X : List Obs) (ops : List (GpOp Obs)) : List Obs :=
  ops.foldl applyOp X

/-! Concrete engine instances over `ℤ`, used to evaluate the engine on
small grids. -/

/-- A one-node grid world over `ℤ`: only the STAY action is defined, the
single node is the seed, `Ŝ₀` is everything, the posterior is the constant
exact interval `[0, 0]`, and the Lipschitz propagation is inert
(`L · dist = 1000 > ` any interval width). -/
def W1 : Engine ℤ Unit where
  n := 1
  neigh := fun s a => if a = (0 : Fin 5) then some s else none
  hw := fun v => v
  h := -1
  L := 1000
  dist := fun _ _ => 1
  post := fun _ _ => (0, 0)
  seed := fun _ => true
  shat0 := fun _ => true
  mkObs := fun _ => ()

/-- A two-node grid world over `ℤ` in which the frontier is nonempty: node 0
is the seed; action 1 moves 0 → 1 and is certified safe; action 2 moves
1 → 0 and is merely optimistically safe, so the transition (0, 1) is safe
but lacks a certified return path and is exactly the expander frontier. -/
def W2 : Engine ℤ Unit where
  n := 2
  neigh := fun s a =>
    if a = (0 : Fin 5) then some s
    else if a = (1 : Fin 5) then (if s = 0 then some 1 else none)
    else if a = (2 : Fin 5) then (if s = 1 then some 0 else none)
    else none
  hw := fun v => v
  h := 0
  L := 1000
  dist := fun _ _ => 1
  post := fun _ t =>
    if t = ((0 : Fin 2), (1 : Fin 5)) then (5, 1)
    else if t = ((1 : Fin 2), (2 : Fin 5)) then (0, 5)
    else (0, 0)
  seed := fun s => decide (s = 0)
  shat0 := fun t => decide (t.1 = 0 ∧ t.2 = 0)
  mkObs := fun _ => ()

/-! Helper lemmas: monotonicity of the interval refinement and of the
fixed-point closures. -/

namespace Engine

variable {α Obs : Type} [LinearOrderedRing α]

lemma intervalAux_append (E : Engine α Obs) (xs ys : List Obs) :
    ∀ (sofar : List Obs) (I : Fin E.n × Fin 5 → α × α),
      E.intervalAux sofar I (xs ++ ys) =
        E.intervalAux (sofar ++ xs) (E.intervalAux sofar I xs) ys := by
  induction xs with
  | nil => intro sofar I; simp [intervalAux]
  | cons o xs ih =>
      intro sofar I
      simp only [List.cons_append, intervalAux, List.append_eq]
      rw [ih]
      simp [List.append_assoc]

lemma intervalAux_bounds (E : Engine α Obs) (os : List Obs) :
    ∀ (sofar : List Obs) (I : Fin E.n × Fin 5 → α × α) (t : Fin E.n × Fin 5),
      (I t).1 ≤ (E.intervalAux sofar I os t).1 ∧
        (E.intervalAux sofar I os t).2 ≤ (I t).2 := by
  induction os with
  | nil => intro sofar I t; simp [intervalAux]
  | cons o os ih =>
      intro sofar I t
      have h2 := ih (sofar ++ [o])
        (fun t => inter (I t) (ciOf E.hw (E.post (sofar ++ [o]) t))) t
      simp only [intervalAux]
      constructor
      · exact le_trans (le_max_left _ _) h2.1
      · exact le_trans h2.2 (min_le_left _ _)

lemma interval_fst_mono (E : Engine α Obs) (os rest : List Obs)
    (t : Fin E.n × Fin 5) :
    (E.interval os t).1 ≤ (E.interval (os ++ rest) t).1 := by
  unfold interval
  rw [E.intervalAux_append os rest [] _]
  exact (E.intervalAux_bounds rest os _ t).1

lemma interval_snd_anti (E : Engine α Obs) (os rest : List Obs)
    (t : Fin E.n × Fin 5) :
    (E.interval (os ++ rest) t).2 ≤ (E.interval os t).2 := by
  unfold interval
  rw [E.intervalAux_append os rest [] _]
  exact (E.intervalAux_bounds rest os _ t).2

lemma safeCert_mono (E : Engine α Obs) (os rest : List Obs) :
    bimp (E.safeCert os) (E.safeCert (os ++ rest)) := by
  intro t ht
  simp only [safeCert, decide_eq_true_eq] at ht ⊢
  exact le_trans ht (E.interval_fst_mono os rest t)

lemma failCert_mono (E : Engine α Obs) (os rest : List Obs) :
    bimp (E.failCert os) (E.failCert (os ++ rest)) := by
  intro t ht
  simp only [failCert, decide_eq_true_eq] at ht ⊢
  exact lt_of_le_of_lt (E.interval_snd_anti os rest t) ht

lemma classify_eq_safeL_iff {l u thr : α} :
    classify l u thr = .safeL ↔ thr ≤ l := by
  unfold classify
  split
  · simp [*]
  · split <;> simp [*]

lemma directS_mono (E : Engine α Obs) (os rest : List Obs) :
    bimp (E.directS os) (E.directS (os ++ rest)) := by
  intro t ht
  simp only [directS, Bool.or_eq_true, decide_eq_true_eq,
    classify_eq_safeL_iff] at ht ⊢
  rcases ht with ht | ht
  · exact Or.inl ht
  · exact Or.inr (le_trans ht (E.interval_fst_mono os rest t))

end Engine

/-- Pointwise-monotone step functions iterate to pointwise-comparable
results: if `F X ≤ G Y` (as Boolean predicates) whenever `X ≤ Y`, then the
same holds for all iterates. -/
lemma iterate_bimp {κ : Type} (F G : (κ → Bool) → κ → Bool)
    (hFG : ∀ X Y, bimp X Y → bimp (F X) (G Y)) :
    ∀ (k : ℕ) (X Y : κ → Bool), bimp X Y → bimp (F^[k] X) (G^[k] Y) := by
  intro k
  induction k with
  | zero => intro X Y h; simpa using h
  | succ k ih =>
      intro X Y h
      rw [Function.iterate_succ_apply, Function.iterate_succ_apply]
      exact ih (F X) (G Y) (hFG X Y h)

/-- Iterating a step that preserves already-set entries preserves them. -/
lemma iterate_preserves {κ : Type} (F : (κ → Bool) → κ → Bool)
    (hF : ∀ X t, X t = true → F X t = true) :
    ∀ (k : ℕ) (X : κ → Bool) (t : κ), X t = true → F^[k] X t = true := by
  intro k
  induction k with
  | zero => intro X t h; simpa using h
  | succ k ih =>
      intro X t h
      rw [Function.iterate_succ_apply]
      exact ih (F X) t (hF X t h)

lemma reachStep_mono {n : ℕ} {adj adj2 : Fin n → Fin n → Bool}
    {R R2 : Fin n → Bool}
    (hadj : ∀ u v, adj u v = true → adj2 u v = true) (hR : bimp R R2) :
    bimp (reachStep adj R) (reachStep adj2 R2) := by
  intro v hv
  simp only [reachStep, Bool.or_eq_true, decide_eq_true_eq] at hv ⊢
  rcases hv with hv | ⟨u, hu, huv⟩
  · exact Or.inl (hR v hv)
  · exact Or.inr ⟨u, hR u hu, hadj u v huv⟩

lemma reachN_mono {n : ℕ} {adj adj2 : Fin n → Fin n → Bool}
    {R R2 : Fin n → Bool} (k : ℕ)
    (hadj : ∀ u v, adj u v = true → adj2 u v = true) (hR : bimp R R2) :
    bimp (reachN adj R k) (reachN adj2 R2 k) :=
  iterate_bimp (reachStep adj) (reachStep adj2)
    (fun _ _ h => reachStep_mono hadj h) k R R2 hR

namespace Engine

variable {α Obs : Type} [LinearOrderedRing α]

lemma adjOf_mono (E : Engine α Obs) {X Y : Fin E.n × Fin 5 → Bool}
    (hXY : bimp X Y) :
    ∀ u v, E.adjOf X u v = true → E.adjOf Y u v = true := by
  intro u v huv
  simp only [adjOf, decide_eq_true_eq] at huv ⊢
  rcases huv with ⟨a, ha, hn⟩
  exact ⟨a, hXY _ ha, hn⟩

lemma reachVia_mono (E : Engine α Obs) {X Y : Fin E.n × Fin 5 → Bool}
    (hXY : bimp X Y) : bimp (E.reachVia X) (E.reachVia Y) :=
  reachN_mono E.n (E.adjOf_mono hXY) (fun _ h => h)

lemma returnVia_mono (E : Engine α Obs) {X Y : Fin E.n × Fin 5 → Bool}
    (hXY : bimp X Y) : bimp (E.returnVia X) (E.returnVia Y) :=
  reachN_mono E.n (fun u v => E.adjOf_mono hXY v u) (fun _ h => h)

lemma propStep_mono (E : Engine α Obs) {lm lm2 : Fin E.n × Fin 5 → α × α}
    (hlm : ∀ t, (lm t).1 ≤ (lm2 t).1) :
    ∀ X Y, bimp X Y → bimp (E.propStep lm X) (E.propStep lm2 Y) := by
  intro X Y hXY t ht
  simp only [propStep, Bool.or_eq_true, decide_eq_true_eq] at ht ⊢
  rcases ht with ht | ⟨t2, ht2, hle⟩
  · exact Or.inl (hXY t ht)
  · exact Or.inr ⟨t2, hXY t2 ht2,
      le_trans hle (sub_le_sub_right (hlm t2) _)⟩

lemma S_mono (E : Engine α Obs) (os rest : List Obs) :
    bimp (E.S os) (E.S (os ++ rest)) :=
  iterate_bimp (E.propStep (E.interval os))
    (E.propStep (E.interval (os ++ rest)))
    (E.propStep_mono (fun t => E.interval_fst_mono os rest t))
    (E.n * 5) _ _ (E.directS_mono os rest)

lemma shatStep_mono (E : Engine α Obs) {S1 S2 : Fin E.n × Fin 5 → Bool}
    (hS : bimp S1 S2) :
    ∀ X Y, bimp X Y → bimp (E.shatStep S1 X) (E.shatStep S2 Y) := by
  intro X Y hXY t ht
  simp only [shatStep, Bool.or_eq_true, Bool.and_eq_true] at ht ⊢
  rcases ht with ht | ⟨⟨hs, hr⟩, hret⟩
  · exact Or.inl (hXY t ht)
  · refine Or.inr ⟨⟨hS t hs, E.reachVia_mono hXY _ hr⟩, ?_⟩
    cases hn : E.neigh t.1 t.2 with
    | none => rw [hn] at hret; exact absurd hret (by simp)
    | some v =>
        rw [hn] at hret
        exact E.returnVia_mono hS v hret

lemma Shat_mono (E : Engine α Obs) (os rest : List Obs) :
    bimp (E.Shat os) (E.Shat (os ++ rest)) :=
  iterate_bimp (E.shatStep (E.S os)) (E.shatStep (E.S (os ++ rest)))
    (E.shatStep_mono (E.S_mono os rest)) (E.n * 5) _ _ (fun _ h => h)

lemma S_stay (E : Engine α Obs) (os : List Obs) (s : Fin E.n) :
    E.S os (s, 0) = true := by
  unfold S
  refine iterate_preserves (E.propStep (E.interval os)) ?_ (E.n * 5)
    (E.directS os) (s, 0) ?_
  · intro X t h
    simp [propStep, h]
  · simp [directS]

lemma marsLoop_ok_extends (E : Engine α Obs) :
    ∀ (k : ℕ) (st st2 : E.LoopState), E.marsLoop k st = .ok st2 →
      ∃ r, st2.1 = st.1 ++ r ∧ r.length = k := by
  intro k
  induction k with
  | zero =>
      intro st st2 h
      simp only [marsLoop, Except.ok.injEq] at h
      exact ⟨[], by simp [← h]⟩
  | succ k ih =>
      intro st st2 h
      simp only [marsLoop] at h
      cases hstep : E.iterStep st with
      | error e => rw [hstep] at h; exact absurd h (by simp)
      | ok st1 =>
          rw [hstep] at h
          rcases ih st1 st2 h with ⟨r, hr, hlen⟩
          unfold iterStep at hstep
          cases hsel : E.selectFrom (E.updateSets st.1) st.1 with
          | error e => rw [hsel] at hstep; exact absurd hstep (by simp)
          | ok tr =>
              rw [hsel] at hstep
              have h1 : st1 = (st.1 ++ [E.mkObs tr], E.updateSets st.1) := by
                injection hstep with h2
                exact h2.symm
              refine ⟨E.mkObs tr :: r, ?_, by simp [hlen]⟩
              rw [hr, h1]
              simp

end Engine

lemma applyOps_extends {Obs : Type} (ops : List (GpOp Obs)) :
    (∀ op ∈ ops, isReset op = false) →
      ∀ X, ∃ r, applyOps X ops = X ++ r := by
  induction ops with
  | nil =>
      intro _ X
      exact ⟨[], by simp [applyOps]⟩
  | cons op ops ih =>
      intro hops X
      have hrest : ∀ o ∈ ops, isReset o = false :=
        fun o ho => hops o (List.mem_cons_of_mem _ ho)
      have hstep : ∃ s, applyOp X op = X ++ s := by
        cases op with
        | add o => exact ⟨[o], rfl⟩
        | update ys => exact ⟨ys, rfl⟩
        | set_XY d =>
            exact absurd (hops _ (List.mem_cons_self _ _)) (by simp [isReset])
      rcases hstep with ⟨s, hs⟩
      rcases ih hrest (applyOp X op) with ⟨r, hr⟩
      refine ⟨s ++ r, ?_⟩
      have hfold : applyOps X (op :: ops) = applyOps (applyOp X op) ops := rfl
      rw [hfold, hr, hs, List.append_assoc]

/-! The claim theorems. -/

/-- C1: for any two observation sequences where one is a prefix of the
other, the certified reachable-returnable set Ŝ computed from the prefix is
a subset of Ŝ computed from the full sequence, and the per-transition
safety labels are monotone: a SAFE certificate (direct, or after Lipschitz
propagation, i.e. membership in S) and an UNSAFE certificate are never
revoked by a later recomputation. -/
theorem safety_labels_monotone {α Obs : Type} [LinearOrderedRing α]
    (E : Engine α Obs) (os rest : List Obs) (t : Fin E.n × Fin 5) :
    (E.safeCert os t = true → E.safeCert (os ++ rest) t = true) ∧
    (E.failCert os t = true → E.failCert (os ++ rest) t = true) ∧
    (E.S os t = true → E.S (os ++ rest) t = true) ∧
    (E.Shat os t = true → E.Shat (os ++ rest) t = true) :=
  ⟨E.safeCert_mono os rest t, E.failCert_mono os rest t,
    E.S_mono os rest t, E.Shat_mono os rest t⟩

/-- C1 witness: on the one-node world, the STAY transition is in Ŝ with no
data, and the theorem keeps it there after one more observation. -/
theorem safety_labels_monotone_witness :
    W1.Shat [] ((0 : Fin 1), (0 : Fin 5)) = true ∧
    W1.Shat ([] ++ [()]) ((0 : Fin 1), (0 : Fin 5)) = true :=
  ⟨by decide,
    (safety_labels_monotone W1 [] [()] ((0 : Fin 1), (0 : Fin 5))).2.2.2
      (by decide)⟩

/-- C2: the confidence interval bounding the true safety feature is exactly
`[mean − β·sqrt(var), mean + β·sqrt(var)]`; in particular `plot_dist_from_C`
computes its bounds `l` and `u` by this formula, and the engine's interval
constructor instantiated with the half-width `β·sqrt(·)` produces the same
pair. -/
theorem confidence_interval_formula (mu var beta : ℝ) (hvar : 0 ≤ var) :
    plot_l mu var beta = mu - beta * Real.sqrt var ∧
    plot_u mu var beta = mu + beta * Real.sqrt var ∧
    ciOf (fun v => beta * Real.sqrt v) (mu, var) =
      (plot_l mu var beta, plot_u mu var beta) :=
  ⟨rfl, rfl, rfl⟩

/-- C2 witness: the lower bound at `mu = 0`, `var = 1`, `beta = 2`. -/
theorem confidence_interval_formula_witness :
    (0 : ℝ) ≤ 1 ∧ plot_l 0 1 2 = 0 - 2 * Real.sqrt 1 :=
  ⟨by norm_num, (confidence_interval_formula 0 1 2 (by norm_num)).1⟩

/-- C3 counterexample: the safety threshold of `mars.py` is not
`tan(θ)` for `θ = π/9`; the code computes `h = -tan(π/9) · step_size[0]`,
which differs in sign and in the step-size factor. -/
theorem h_not_slope_of_angle : Mars.h ≠ Real.tan (Real.pi / 9) := by
  have ht : 0 < Real.tan (Real.pi / 9) :=
    Real.tan_pos_of_pos_of_lt_pi_div_two (by positivity)
      (by
        rw [div_lt_div_iff₀ (by norm_num) (by norm_num)]
        nlinarith [Real.pi_pos])
  intro hEq
  unfold Mars.h Mars.step_size at hEq
  norm_num at hEq
  nlinarith

/-- C3 amended: the threshold is `h = -tan(θ) · step_size[0]` with
`θ = π/9` and `step_size[0] = 2` (a negative elevation-difference
threshold), and a transition is classified SAFE exactly when the lower end
of its confidence interval stays above `h`. -/
theorem h_threshold_amended :
    Mars.h = -Real.tan (Real.pi / 9) * 2 ∧
    ∀ l u : ℝ, (classify l u Mars.h = .safeL ↔ Mars.h ≤ l) :=
  ⟨rfl, fun _ _ => Engine.classify_eq_safeL_iff⟩

/-- C4: whenever the expander frontier G is empty, the sample-selection
operation fails with the "empty frontier" condition, and the Mars
exploration loop then terminates with that condition instead of ingesting
any further observation, for every remaining iteration budget. -/
theorem empty_frontier_halts {α Obs : Type} [LinearOrderedRing α]
    (E : Engine α Obs) (st : E.LoopState)
    (hG : ∀ t, E.G st.1 t = false) :
    E.selectFrom (E.updateSets st.1) st.1 = .error .emptyFrontier ∧
    ∀ k, E.marsLoop (k + 1) st = .error .emptyFrontier := by
  have hsel : E.selectFrom (E.updateSets st.1) st.1 = .error .emptyFrontier := by
    unfold Engine.selectFrom
    have hfil : E.allTrans.filter (fun t => (E.updateSets st.1).2.2 t) = [] := by
      rw [List.filter_eq_nil_iff]
      intro t _
      simp [Engine.updateSets, hG t]
    rw [hfil]
  exact ⟨hsel, fun k => by simp [Engine.marsLoop, Engine.iterStep, hsel]⟩

/-- C4 witness: on the one-node world the frontier is empty from the start
and the loop halts with the empty-frontier condition on its first
iteration. -/
theorem empty_frontier_halts_witness :
    W1.G [] ((0 : Fin 1), (0 : Fin 5)) = false ∧
    W1.marsLoop 1 ([], W1.updateSets []) = .error .emptyFrontier :=
  ⟨by decide,
    (empty_frontier_halts W1 ([], W1.updateSets []) (by decide)).2 0⟩

/-- C5: over any sequence of observe (`add_observation`) and `update`
operations — i.e. any sequence avoiding the explicit reset `set_XY` in its
suffix — the Belief Model's training set at a later time contains every
observation present at an earlier time: the earlier training set is a
prefix of the later one. -/
theorem training_set_append_only {Obs : Type} (X : List Obs)
    (ops1 ops2 : List (GpOp Obs))
    (h2 : ∀ op ∈ ops2, isReset op = false) :
    ∃ r, applyOps X (ops1 ++ ops2) = applyOps X ops1 ++ r := by
  have hsplit : applyOps X (ops1 ++ ops2) = applyOps (applyOps X ops1) ops2 := by
    simp [applyOps, List.foldl_append]
  rw [hsplit]
  exact applyOps_extends ops2 h2 (applyOps X ops1)

/-- C5 witness: a concrete observe/update suffix extends the concrete
training set without discarding anything. -/
theorem training_set_append_only_witness :
    isReset (GpOp.add (3 : ℕ)) = false ∧
    ∃ r, applyOps [1] ([GpOp.add 2] ++ [GpOp.add 3, GpOp.update [4, 5]]) =
      applyOps ([1] : List ℕ) [GpOp.add 2] ++ r :=
  ⟨rfl,
    training_set_append_only [1] [GpOp.add 2] [GpOp.add 3, GpOp.update [4, 5]]
      (by decide)⟩

/-- C6: the initial safe set `S0` of `mars.py` marks the STAY action
(action 0) true at every node, and the engine's recomputed safe set keeps
STAY marked SAFE at every node after every possible training list. -/
theorem stay_always_safe {α Obs : Type} [LinearOrderedRing α]
    (E : Engine α Obs) (os : List Obs) :
    (∀ s : Fin Mars.numNodes, Mars.S0 (s, 0) = true) ∧
    (∀ s : Fin E.n, E.S os (s, 0) = true) :=
  ⟨fun _ => rfl, fun s => E.S_stay os s⟩

/-- C7: each loop iteration is the strict sequence recompute-sets, then
select-sample from the recomputed sets, then append the observation: the
iteration either fails exactly when selection over `updateSets` of the
current training list fails, or continues on the training list extended by
exactly the selected sample's observation; consequently after `k`
successful iterations the training list is the initial one plus exactly
`k` appended observations, so the sets used at iteration `t` reflect
exactly the observations ingested through iteration `t − 1`. -/
theorem iteration_strict_sequence {α Obs : Type} [LinearOrderedRing α]
    (E : Engine α Obs) (k : ℕ) (st st2 : E.LoopState) :
    (∀ e, E.selectFrom (E.updateSets st.1) st.1 = .error e →
      E.marsLoop (k + 1) st = .error e) ∧
    (∀ tr, E.selectFrom (E.updateSets st.1) st.1 = .ok tr →
      E.marsLoop (k + 1) st =
        E.marsLoop k (st.1 ++ [E.mkObs tr], E.updateSets st.1)) ∧
    (E.marsLoop k st = .ok st2 → ∃ r, st2.1 = st.1 ++ r ∧ r.length = k) :=
  ⟨fun e he => by simp [Engine.marsLoop, Engine.iterStep, he],
    fun tr htr => by simp [Engine.marsLoop, Engine.iterStep, htr],
    fun h => E.marsLoop_ok_extends k st st2 h⟩

/-- C7 witness: on the two-node world the loop completes one iteration and
the training list has grown by exactly the one selected observation. -/
theorem iteration_strict_sequence_witness :
    ∃ r, ([()] : List Unit) = [] ++ r ∧ r.length = 1 :=
  (iteration_strict_sequence W2 1 ([], W2.updateSets [])
    (([()], W2.updateSets []))).2.2 rfl

/-- C8: the oracle evaluation never influences the online algorithm: the
loop state (training list and the S, Ŝ, G snapshot) produced by the
experiment equals the plain exploration-loop result, for every true-feature
field handed to the oracle, and is identical across different oracle
inputs; the oracle contributes only to the post-loop scoring metrics. -/
theorem oracle_noninterference {α Obs : Type} [LinearOrderedRing α]
    (E : Engine α Obs) (f g : Fin E.n × Fin 5 → α) (st0 : E.LoopState)
    (budget : ℕ) :
    (E.runExperiment f st0 budget).map Prod.fst = E.marsLoop budget st0 ∧
    (E.runExperiment f st0 budget).map Prod.fst =
      (E.runExperiment g st0 budget).map Prod.fst := by
  cases h : E.marsLoop budget st0 with
  | error e => constructor <;> simp [Engine.runExperiment, h, Except.map]
  | ok st => constructor <;> simp [Engine.runExperiment, h, Except.map]

/-- C9: the three scalar metrics recorded by `mars.py` equal, respectively,
the number of transitions marked in Ŝ, the false-negative count
`|true_S_hat \ S_hat|`, and the false-positive count
`|S_hat \ true_S_hat|`, stated with `Finset` cardinalities of the marked
sets. -/
theorem metrics_formulas (N : ℕ) (sHat tShat : Fin N × Fin 5 → Bool) :
    size_S_hat N sHat =
      (Finset.univ.filter fun t : Fin N × Fin 5 => sHat t = true).card ∧
    true_S_hat_minus_S_hat N sHat tShat =
      ((Finset.univ.filter fun t : Fin N × Fin 5 => tShat t = true) \
        (Finset.univ.filter fun t : Fin N × Fin 5 => sHat t = true)).card ∧
    S_hat_minus_true_S_hat N sHat tShat =
      ((Finset.univ.filter fun t : Fin N × Fin 5 => sHat t = true) \
        (Finset.univ.filter fun t : Fin N × Fin 5 => tShat t = true)).card := by
  have key : ∀ M : Fin N × Fin 5 → Bool,
      npSum N M = (Finset.univ.filter fun t => M t = true).card := by
    intro M
    rw [Finset.card_filter]
    unfold npSum
    apply Finset.sum_congr rfl
    intro t _
    cases hM : M t <;> simp [hM]
  have sd : ∀ A B : Fin N × Fin 5 → Bool,
      (Finset.univ.filter fun t : Fin N × Fin 5 => B t = true) \
          (Finset.univ.filter fun t : Fin N × Fin 5 => A t = true) =
        Finset.univ.filter fun t : Fin N × Fin 5 => (B t && !(A t)) = true := by
    intro A B
    ext t
    simp [Bool.and_eq_true, Bool.not_eq_true', Bool.not_eq_true]
  refine ⟨key sHat, ?_, ?_⟩
  · rw [sd sHat tShat]
    exact key _
  · rw [sd tShat sHat]
    exact key _

/-- C10: elementwise behaviour of the distance-from-confidence-interval
array of `plot_dist_from_C`: with nonnegative variance and β, an entry is
`a − u` (strictly positive) where `a > u`, `a − l` (strictly negative)
where `a < l`, and `0` where `l ≤ a ≤ u`. -/
theorem dist_from_C_cases (mu var beta a : ℝ) (hvar : 0 ≤ var)
    (hbeta : 0 ≤ beta) :
    (plot_u mu var beta < a →
      dist_from_confidence_interval mu var beta a = a - plot_u mu var beta ∧
        0 < dist_from_confidence_interval mu var beta a) ∧
    (a < plot_l mu var beta →
      dist_from_confidence_interval mu var beta a = a - plot_l mu var beta ∧
        dist_from_confidence_interval mu var beta a < 0) ∧
    (plot_l mu var beta ≤ a → a ≤ plot_u mu var beta →
      dist_from_confidence_interval mu var beta a = 0) := by
  have hsigma : 0 ≤ plot_sigma beta var :=
    mul_nonneg hbeta (Real.sqrt_nonneg var)
  have hlu : plot_l mu var beta ≤ plot_u mu var beta := by
    unfold plot_l plot_u
    linarith
  refine ⟨?_, ?_, ?_⟩
  · intro hu
    have h1 : ¬(a - plot_l mu var beta < 0) := by linarith
    have h2 : a - plot_u mu var beta > 0 := by linarith
    unfold dist_from_confidence_interval
    rw [if_neg h1, if_pos h2]
    exact ⟨rfl, by linarith⟩
  · intro hl
    have h1 : a - plot_l mu var beta < 0 := by linarith
    unfold dist_from_confidence_interval
    rw [if_pos h1]
    exact ⟨rfl, by linarith⟩
  · intro h1 h2
    unfold dist_from_confidence_interval
    rw [if_neg (by linarith : ¬(a - plot_l mu var beta < 0)),
      if_neg (by linarith : ¬(a - plot_u mu var beta > 0))]

/-- C10 witness: at `mu = 0`, `var = 1`, `beta = 1`, `a = 2` the entry is
`a − u = 1`. -/
theorem dist_from_C_cases_witness :
    (0 : ℝ) ≤ 1 ∧ plot_u 0 1 1 < 2 ∧
    dist_from_confidence_interval 0 1 1 2 = 2 - plot_u 0 1 1 := by
  have hu : plot_u 0 1 1 < 2 := by
    unfold plot_u plot_sigma
    rw [Real.sqrt_one]
    norm_num
  exact ⟨by norm_num, hu,
    ((dist_from_C_cases 0 1 1 2 (by norm_num) (by norm_num)).1 hu).1⟩

end SafeMDP
